import Mathlib

/-!
Verification of the monocypher-cpp wrapper layer.

Byte buffers are modelled as `List Nat` (one entry per byte) or, for raw
memory compared by `constant_time_compare`, as functions `Nat → Nat` from
byte offsets to byte values.  The wrapped C primitives (crypto_verify16/32/64,
crypto_wipe, the AEAD lock/unlock pair, tweetnacl's secretbox, crypto_argon2,
crypto_eddsa_key_pair) are vendored third-party code, out of scope per the
spec; where a claim needs their behaviour it is either taken as an explicit
hypothesis of the theorem or modelled from their documented contract (noted
on the definition).
-/

namespace MonocypherCpp

/-- Writing `bs` into a byte buffer `buf` at offset `pos` (memcpy semantics). -/
def writeAt (buf : List Nat) (pos : Nat) (bs : List Nat) : List Nat :=
  buf.take pos ++ bs ++ buf.drop (pos + bs.length)

/-- Modelled from the spec: `crypto_verify16/32/64` compare `n` bytes at
offset `i` of two memory regions and return 0 exactly when they are equal
(the vendored implementations are out of scope; only this input/output
contract is used).  We model the boolean `0 == crypto_verifyN(..)`. -/
def verifyN (n : Nat) (a b : Nat → Nat) (i : Nat) : Bool :=
  decide (∀ j, j < n → a (i + j) = b (i + j))

/-- One of the three chunked comparison loops of `constant_time_compare`
(`while (i + step <= size) { if crypto_verifyN fails return false; i += step; }`).
The loop is written with explicit fuel so that it is structurally recursive;
with fuel `> size - i` and `step ≥ 1` the fuel never runs out. -/
def ctcLoop (step : Nat) (a b : Nat → Nat) (size : Nat) : Nat → Nat → Bool × Nat
  | 0, i => (true, i)
  | fuel+1, i =>
    if i + step ≤ size then
      if verifyN step a b i then ctcLoop step a b size fuel (i + step)
      else (false, i)
    else (true, i)

/-- The zero-padded 16-byte stack buffer used by `constant_time_compare` for
sizes below 16: the first `size` bytes are copied from `a`, the rest stay 0. -/
def padTo (size : Nat) (a : Nat → Nat) : Nat → Nat :=
  fun j => if j < size then a j else 0

/-- `constant_time_compare` from Monocypher.cc: compares in 64/32/16-byte
chunks, then handles a remainder by re-comparing the last 16 bytes
(when `size ≥ 16`) or by comparing zero-padded 16-byte buffers
(when `size < 16`). -/
def constant_time_compare (a b : Nat → Nat) (size : Nat) : Bool :=
  match ctcLoop 64 a b size (size + 1) 0 with
  | (false, _) => false
  | (true, i1) =>
    match ctcLoop 32 a b size (size + 1) i1 with
    | (false, _) => false
    | (true, i2) =>
      match ctcLoop 16 a b size (size + 1) i2 with
      | (false, _) => false
      | (true, i3) =>
        if i3 < size then
          if 16 ≤ size then verifyN 16 a b (size - 16)
          else verifyN 16 (padTo size a) (padTo size b) 0
        else true

/-- Generic `operator==` on `byte_array<Size>` (base.hh): requires
`Size % 16 == 0` (a `static_assert` in the source) and calls
`constant_time_compare` on the two arrays. -/
def byte_array_eq (Size : Nat) (a b : Nat → Nat) : Bool :=
  constant_time_compare a b Size

/-- Specialized `operator==` for `byte_array<16>`: one `crypto_verify16`. -/
def byte_array_eq16 (a b : Nat → Nat) : Bool :=
  verifyN 16 a b 0

/-- Specialized `operator==` for `byte_array<24>`: `crypto_verify16` on the
first 16 bytes and on the 16 bytes starting at offset 8. -/
def byte_array_eq24 (a b : Nat → Nat) : Bool :=
  verifyN 16 a b 0 && verifyN 16 a b 8

/-- Specialized `operator==` for `byte_array<32>`: one `crypto_verify32`. -/
def byte_array_eq32 (a b : Nat → Nat) : Bool :=
  verifyN 32 a b 0

/-- Specialized `operator==` for `byte_array<64>`: one `crypto_verify64`. -/
def byte_array_eq64 (a b : Nat → Nat) : Bool :=
  verifyN 64 a b 0

/-- An AEAD algorithm, the `Algorithm` template parameter of
`session::encryption_key` (the default, `XChaCha20_Poly1305`, forwards to the
vendored `crypto_aead_lock`/`crypto_aead_unlock`, which are out of scope).
`lock key nonce ad pt` returns the written ciphertext and the MAC;
`unlock key nonce mac ad ct` returns the written plaintext, or `none` for the
nonzero (authentication-failure) return code.  `macOf key nonce ad ct` is the
MAC that authenticates `ct`; theorems that need it assume pointwise that
`unlock` succeeds exactly on that MAC. -/
structure AEAD where
  lock : List Nat → List Nat → List Nat → List Nat → List Nat × List Nat
  unlock : List Nat → List Nat → List Nat → List Nat → List Nat → Option (List Nat)
  macOf : List Nat → List Nat → List Nat → List Nat → List Nat

/-- `encryption_key::lock` (encryption.hh): calls `Algorithm::lock`, which
writes ciphertext of the plaintext's size into the output buffer, and returns
the MAC.  Result: (mac, cipher buffer after the call).  The `fixOverlap`
aliasing fixup is a no-op here because buffers are modelled as values. -/
def encryption_key.lock (A : AEAD) (key nonce pt ad cipherBuf : List Nat) :
    List Nat × List Nat :=
  ((A.lock key nonce ad pt).2, writeAt cipherBuf 0 (A.lock key nonce ad pt).1)

/-- `encryption_key::unlock` (encryption.hh): returns
`0 == Algorithm::unlock(...)`, writing the plaintext into the output buffer
on success.  Result: (success flag, plain buffer after the call). -/
def encryption_key.unlock (A : AEAD) (key nonce in_mac ct ad plainBuf : List Nat) :
    Bool × List Nat :=
  match A.unlock key nonce in_mac ad ct with
  | some pt => (true, writeAt plainBuf 0 pt)
  | none => (false, plainBuf)

/-- `boxedSize` (encryption.hh): `plaintextSize + sizeof(mac)`. -/
def boxedSize (plaintextSize : Nat) : Nat :=
  plaintextSize + 16

/-- `unboxedSize` (encryption.hh): `std::max(ciphertextSize, sizeof(mac)) - sizeof(mac)`. -/
def unboxedSize (ciphertextSize : Nat) : Nat :=
  max ciphertextSize 16 - 16

/-- `_box` (encryption.hh): shrinks the output buffer to
`boxedSize(msg_size)`, lets the callback write the ciphertext `ct` at offset
`sizeof(mac)` and stores the returned MAC `m` at offset 0. -/
def _box (outBuf : List Nat) (msgSize : Nat) (m ct : List Nat) : List Nat :=
  let buf := outBuf.take (boxedSize msgSize)
  writeAt (writeAt buf 16 ct) 0 m

/-- `_unbox` (encryption.hh): returns the null buffer `{nullptr, 0}`
(modelled as `none`) when the input is shorter than a MAC, otherwise shrinks
the output buffer to `unboxedSize`, splits the input into MAC and ciphertext
and runs the callback; `none` again when the callback reports failure.
Result: (returned output_bytes, output buffer memory after the call). -/
def _unbox (outBuf boxed : List Nat) (cb : List Nat → List Nat → Option (List Nat)) :
    Option (List Nat) × List Nat :=
  if boxed.length < 16 then (none, outBuf)
  else
    let out := outBuf.take (unboxedSize boxed.length)
    match cb (boxed.take 16) ((boxed.drop 16).take out.length) with
    | some pt => (some (writeAt out 0 pt), writeAt outBuf 0 pt)
    | none => (none, outBuf)

/-- `encryption_key::box` (encryption.hh): `_box` around `lock` with no
additional data. -/
def encryption_key.box (A : AEAD) (key nonce pt outBuf : List Nat) : List Nat :=
  _box outBuf pt.length (A.lock key nonce [] pt).2 (A.lock key nonce [] pt).1

/-- `encryption_key::unbox` (encryption.hh): `_unbox` around `unlock` with no
additional data. -/
def encryption_key.unbox (A : AEAD) (key nonce boxed outBuf : List Nat) :
    Option (List Nat) × List Nat :=
  _unbox outBuf boxed (fun m ct => A.unlock key nonce m [] ct)

/-- A streaming AEAD (`Algorithm::init_stream/write_stream/read_stream` with
its `stream_context`); the default forwards to the vendored
`crypto_aead_init_x`/`crypto_aead_write`/`crypto_aead_read`.
`read_stream ctx mac ad ct` returns the written plaintext and the ratcheted
context, or `none` for a nonzero (authentication-failure) return code. -/
structure StreamAEAD (Ctx : Type) where
  init_stream : List Nat → List Nat → Ctx
  write_stream : Ctx → List Nat → List Nat → List Nat × List Nat × Ctx
  read_stream : Ctx → List Nat → List Nat → List Nat → Option (List Nat × Ctx)
  macOfStream : Ctx → List Nat → List Nat → List Nat

/-- `encrypted_reader::read` (encryption.hh): returns
`Algorithm::read_stream(...) == 0`, writing the plaintext on success.
Result: (success flag, context after, plain buffer after). -/
def encrypted_reader.read {Ctx : Type} (A : StreamAEAD Ctx) (st : Ctx)
    (in_mac ct ad plainBuf : List Nat) : Bool × Ctx × List Nat :=
  match A.read_stream st in_mac ad ct with
  | some r => (true, r.2, writeAt plainBuf 0 r.1)
  | none => (false, st, plainBuf)

/-- Modelled from the spec: `crypto_wipe` "securely fills memory with zeroes"
(the vendored implementation is out of scope; only this contract is used). -/
def crypto_wipe (xs : List Nat) : List Nat :=
  xs.map fun _ => 0

/-- `secret_byte_array::~secret_byte_array` (base.hh): `this->wipe()`, i.e.
`crypto_wipe` over the whole array. -/
def secret_byte_array.dtor (xs : List Nat) : List Nat :=
  crypto_wipe xs

/-- `encrypted_writer::~encrypted_writer` (encryption.hh):
`crypto_wipe(&_context, sizeof(_context))`. -/
def encrypted_writer.dtor (ctx : List Nat) : List Nat :=
  crypto_wipe ctx

/-- `encrypted_reader::~encrypted_reader` (encryption.hh):
`crypto_wipe(&_context, sizeof(_context))`. -/
def encrypted_reader.dtor (ctx : List Nat) : List Nat :=
  crypto_wipe ctx

/-- `XSalsa20_Poly1305::lock` (Monocypher+xsalsa20.cc), parametric in the
vendored tweetnacl `crypto_secretbox_xsalsa20poly1305_tweet` (`sb inBuf nonce
key`, whose output has the input's length): builds the NaCl input buffer of
32 zero bytes followed by the plaintext, runs secretbox on all
`size + 32` bytes, and copies output bytes 16..31 to the MAC and output bytes
32..(size+31) to the ciphertext.  Result: (mac, ciphertext). -/
def XSalsa20_Poly1305.lock (sb : List Nat → List Nat → List Nat → List Nat)
    (key nonce pt : List Nat) : List Nat × List Nat :=
  let inBuffer := List.replicate 32 0 ++ pt
  let outBuffer := sb inBuffer nonce key
  ((outBuffer.drop 16).take 16, (outBuffer.drop 32).take pt.length)

/-- `XSalsa20_Poly1305::unlock` (Monocypher+xsalsa20.cc), parametric in the
vendored `crypto_secretbox_xsalsa20poly1305_tweet_open` (`none` for a nonzero
return): rebuilds the padded buffer of 16 zero bytes, the MAC, then the
ciphertext; returns -1 when secretbox_open rejects it, else 0 after copying
output bytes 32.. into `out`.  Result: (return code, out buffer after). -/
def XSalsa20_Poly1305.unlock
    (sbOpen : List Nat → List Nat → List Nat → Option (List Nat))
    (key nonce in_mac ct out : List Nat) : Int × List Nat :=
  let inBuffer := List.replicate 16 0 ++ in_mac ++ ct
  match sbOpen inBuffer nonce key with
  | none => (-1, out)
  | some outBuffer => (0, writeAt out 0 ((outBuffer.drop 32).take ct.length))

/-- Work-area allocation size in `argon2::create` (key_derivation.hh):
`NBlocks * 1024` computed in `uint32_t` arithmetic (`NBlocks` is `uint32_t`). -/
def argon2.workAreaSize (NBlocks : Nat) : Nat :=
  (NBlocks * 1024) % 2 ^ 32

/-- `argon2::create` (key_derivation.hh), parametric in the vendored
`crypto_argon2` (out of scope), which fills the `Size`-byte hash with bytes
`hashFn password salt 0 .. hashFn password salt (Size-1)`.  The only failure
is the work-area allocation (`std::bad_alloc`, or `abort()` with exceptions
disabled), modelled by `allocOk`; on success the function always returns the
`Size`-byte hash — there is no boolean or other error path. -/
def argon2.create (Size : Nat) (hashFn : List Nat → List Nat → Nat → Nat)
    (allocOk : Bool) (password s4lt : List Nat) : Except Unit (List Nat) :=
  if allocOk then Except.ok ((List.range Size).map (hashFn password s4lt))
  else Except.error ()

/-- `byte_array<Size>` (base.hh): a `std::array<uint8_t, Size>`, i.e. exactly
`Size` bytes, the size being a compile-time constant of the type. -/
structure byte_array (Size : Nat) where
  bytes : List Nat
  len_eq : bytes.length = Size

/-- `session::nonce` is a `byte_array<24>` (encryption.hh). -/
abbrev session.nonce := byte_array 24

/-- `session::mac` is a `byte_array<16>` (encryption.hh). -/
abbrev session.mac := byte_array 16

/-- `session::encryption_key` is a `secret_byte_array<32>` (encryption.hh). -/
abbrev session.encryption_key_t := byte_array 32

/-- `key_exchange::secret_key` is a `secret_byte_array<32>` (key_exchange.hh). -/
abbrev key_exchange.secret_key := byte_array 32

/-- `key_exchange::public_key` is a `byte_array<32>` (key_exchange.hh). -/
abbrev key_exchange.public_key := byte_array 32

/-- `key_exchange::shared_secret` is a `secret_byte_array<32>` (key_exchange.hh). -/
abbrev key_exchange.shared_secret := byte_array 32

/-- `signature` is a `byte_array<64>` (signatures.hh). -/
abbrev signature_t := byte_array 64

/-- Signing `public_key` is a `byte_array<32>` (signatures.hh). -/
abbrev public_key_t := byte_array 32

/-- `key_pair` is a `secret_byte_array<64>` (signatures.hh). -/
abbrev key_pair_t := byte_array 64

/-- `key_pair::key_pair(seed)` (signatures.hh): calls
`Algorithm::generate_fn` (the vendored `crypto_eddsa_key_pair`) on a copy of
the seed and stores the returned 64-byte secret key; `gen s33d` returns
(64-byte secret key, 32-byte public key). -/
def key_pair.from_seed (gen : List Nat → List Nat × List Nat) (s33d : List Nat) :
    List Nat :=
  (gen s33d).1

/-- `key_pair::get_seed` (signatures.hh): `range<0,32>()` of the pair. -/
def key_pair.get_seed (kp : List Nat) : List Nat :=
  kp.take 32

/-- `key_pair::get_public_key` (signatures.hh): `range<32,32>()` of the pair. -/
def key_pair.get_public_key (kp : List Nat) : List Nat :=
  (kp.drop 32).take 32

/-- Checksum MAC of the toy AEAD below. -/
def toyMac (key nonce ad ct : List Nat) : List Nat :=
  List.replicate 16 ((key.sum + nonce.sum + ad.sum + ct.sum) % 256)

/-- Concrete AEAD instance used to evaluate the algorithm-parametric theorems
on concrete inputs: the "ciphertext" is the plaintext itself and the MAC is a
checksum; `unlock` succeeds exactly when the MAC matches. -/
def toyAEAD : AEAD where
  lock := fun key nonce ad pt => (pt, toyMac key nonce ad pt)
  unlock := fun key nonce m ad ct =>
    if m = toyMac key nonce ad ct then some ct else none
  macOf := toyMac

/-- Checksum MAC of the toy streaming AEAD below. -/
def toyStreamMac (st ad ct : List Nat) : List Nat :=
  List.replicate 16 ((st.sum + ad.sum + ct.sum) % 256)

/-- Concrete streaming AEAD instance (context: a list of bytes, ratcheted by
appending a byte) used to evaluate stream-parametric theorems. -/
def toyStream : StreamAEAD (List Nat) where
  init_stream := fun key nonce => key ++ nonce
  write_stream := fun st ad pt => (pt, toyStreamMac st ad pt, st ++ [1])
  read_stream := fun st m ad ct =>
    if m = toyStreamMac st ad ct then some (ct, st ++ [1]) else none
  macOfStream := toyStreamMac

/-- Concrete length-preserving secretbox used to evaluate the
secretbox-parametric theorems: the identity on the input buffer. -/
def toySecretbox : List Nat → List Nat → List Nat → List Nat :=
  fun inBuf _ _ => inBuf

/-- Concrete secretbox_open that accepts every input. -/
def toySecretboxOpen : List Nat → List Nat → List Nat → Option (List Nat) :=
  fun inBuf _ _ => some inBuf

lemma verifyN_eq_true {n : Nat} {a b : Nat → Nat} {i : Nat} :
    verifyN n a b i = true ↔ ∀ j, j < n → a (i + j) = b (i + j) := by
  simp [verifyN]

lemma ctcLoop_false (step : Nat) {a b : Nat → Nat} (size : Nat) :
    ∀ fuel i, (ctcLoop step a b size fuel i).1 = false →
      ∃ m, m < size ∧ a m ≠ b m := by
  intro fuel
  induction fuel with
  | zero => intro i h; simp [ctcLoop] at h
  | succ fuel ih =>
    intro i h
    by_cases hle : i + step ≤ size
    · by_cases hv : verifyN step a b i = true
      · rw [ctcLoop, if_pos hle, if_pos hv] at h
        exact ih _ h
      · rw [verifyN_eq_true] at hv
        push_neg at hv
        obtain ⟨j, hj, hne⟩ := hv
        exact ⟨i + j, by omega, hne⟩
    · rw [ctcLoop, if_neg hle] at h
      simp at h

lemma ctcLoop_true (step : Nat) {a b : Nat → Nat} (size : Nat) :
    ∀ fuel i, size - i < fuel → 1 ≤ step → i ≤ size →
      (∀ j, j < i → a j = b j) →
      (ctcLoop step a b size fuel i).1 = true →
      (∀ j, j < (ctcLoop step a b size fuel i).2 → a j = b j) ∧
        size < (ctcLoop step a b size fuel i).2 + step ∧
        (ctcLoop step a b size fuel i).2 ≤ size := by
  intro fuel
  induction fuel with
  | zero => intro i hfuel; omega
  | succ fuel ih =>
    intro i hfuel hstep hi hbelow htrue
    by_cases hle : i + step ≤ size
    · by_cases hv : verifyN step a b i = true
      · rw [ctcLoop, if_pos hle, if_pos hv] at htrue ⊢
        refine ih (i + step) (by omega) hstep (by omega) ?_ htrue
        intro j hj
        by_cases hji : j < i
        · exact hbelow j hji
        · have hj' : j - i < step := by omega
          have := verifyN_eq_true.mp hv (j - i) hj'
          have hji' : i + (j - i) = j := by omega
          rwa [hji'] at this
      · rw [ctcLoop, if_pos hle, if_neg hv] at htrue
        simp at htrue
    · rw [ctcLoop, if_neg hle] at htrue ⊢
      exact ⟨hbelow, by omega, hi⟩

/-- Characterization of `constant_time_compare`: it returns true exactly when
the first `size` bytes of the two regions agree. -/
lemma constant_time_compare_iff (a b : Nat → Nat) (size : Nat) :
    constant_time_compare a b size = true ↔ ∀ j, j < size → a j = b j := by
  rcases h1 : ctcLoop 64 a b size (size + 1) 0 with ⟨ok1, i1⟩
  cases ok1 with
  | false =>
    simp only [constant_time_compare, h1, Bool.false_eq_true, false_iff]
    intro hall
    obtain ⟨m, hm, hne⟩ := ctcLoop_false 64 (a := a) (b := b) size (size + 1) 0 (by rw [h1])
    exact hne (hall m hm)
  | true =>
    have hc1 := ctcLoop_true 64 (a := a) (b := b) size
      (size + 1) 0 (by omega) (by omega) (by omega)
      (fun j hj => absurd hj (by omega)) (by rw [h1])
    rw [h1] at hc1
    obtain ⟨hbelow1, _, hle1⟩ := hc1
    rcases h2 : ctcLoop 32 a b size (size + 1) i1 with ⟨ok2, i2⟩
    cases ok2 with
    | false =>
      simp only [constant_time_compare, h1, h2, Bool.false_eq_true, false_iff]
      intro hall
      obtain ⟨m, hm, hne⟩ := ctcLoop_false 32 (a := a) (b := b) size (size + 1) i1 (by rw [h2])
      exact hne (hall m hm)
    | true =>
      have hc2 := ctcLoop_true 32 (a := a) (b := b) size
        (size + 1) i1 (by omega) (by omega) hle1 hbelow1 (by rw [h2])
      rw [h2] at hc2
      obtain ⟨hbelow2, _, hle2⟩ := hc2
      rcases h3 : ctcLoop 16 a b size (size + 1) i2 with ⟨ok3, i3⟩
      cases ok3 with
      | false =>
        simp only [constant_time_compare, h1, h2, h3, Bool.false_eq_true, false_iff]
        intro hall
        obtain ⟨m, hm, hne⟩ := ctcLoop_false 16 (a := a) (b := b) size (size + 1) i2 (by rw [h3])
        exact hne (hall m hm)
      | true =>
        have hc3 := ctcLoop_true 16 (a := a) (b := b) size
          (size + 1) i2 (by omega) (by omega) hle2 hbelow2 (by rw [h3])
        rw [h3] at hc3
        obtain ⟨hbelow3, hnear3, hle3⟩ := hc3
        simp only [constant_time_compare, h1, h2, h3]
        by_cases hlt : i3 < size
        · rw [if_pos hlt]
          by_cases h16 : 16 ≤ size
          · rw [if_pos h16, verifyN_eq_true]
            constructor
            · intro hlast j hj
              by_cases hji : j < i3
              · exact hbelow3 j hji
              · have hoff : j = (size - 16) + (j - (size - 16)) := by omega
                rw [hoff]
                exact hlast (j - (size - 16)) (by omega)
            · intro hall j hj
              exact hall ((size - 16) + j) (by omega)
          · rw [if_neg h16, verifyN_eq_true]
            constructor
            · intro hpad j hj
              have := hpad j (by omega)
              simpa [padTo, Nat.zero_add, hj] using this
            · intro hall j _
              by_cases hjs : j < size
              · simpa [padTo, hjs] using hall j hjs
              · simp [padTo, hjs]
        · simp only [if_neg hlt, true_iff]
          intro j hj
          exact hbelow3 j (by omega)

lemma writeAt_nil (buf : List Nat) (pos : Nat) : writeAt buf pos [] = buf := by
  simp [writeAt]

lemma writeAt_zero_full {buf bs : List Nat} (h : bs.length = buf.length) :
    writeAt buf 0 bs = bs := by
  simp [writeAt, ← h, List.drop_length]

lemma crypto_wipe_eq (xs : List Nat) :
    crypto_wipe xs = List.replicate xs.length 0 := by
  induction xs with
  | nil => rfl
  | cons x xs ih =>
    simp only [crypto_wipe, List.map_cons, List.length_cons, List.replicate_succ] at ih ⊢
    rw [ih]

lemma _box_spec {outBuf m ct : List Nat} (n : Nat) (hct : ct.length = n)
    (hm : m.length = 16) (hbuf : n + 16 ≤ outBuf.length) :
    _box outBuf n m ct = m ++ ct := by
  have h1 : (outBuf.take (n + 16)).length = n + 16 := by
    rw [List.length_take]; omega
  have hdrop : (outBuf.take (n + 16)).drop (16 + ct.length) = [] :=
    List.drop_eq_nil_of_le (by omega)
  have htake16 : ((outBuf.take (n + 16)).take 16).length = 16 := by
    rw [List.length_take]; omega
  have hdct : List.drop 16 (List.take 16 (List.take (n + 16) outBuf) ++ ct) = ct := by
    have h2 := List.drop_left (List.take 16 (List.take (n + 16) outBuf)) ct
    rwa [htake16] at h2
  simp only [_box, boxedSize, writeAt, hdrop, List.take_zero, List.nil_append,
    List.append_nil, Nat.zero_add, hm, hdct]

/-- C4: `constant_time_compare(a, b, size)` returns true if and only if the
two `size`-byte ranges are byte-for-byte equal, for every `size` — including
sizes that are not a multiple of 16, handled by re-comparing the last 16
bytes when `size ≥ 16` and by comparing zero-padded 16-byte buffers when
`size < 16` — and `byte_array` `operator==` decides byte-for-byte equality
through it (the generic operator, which the source restricts to
`Size % 16 == 0` by `static_assert`) or through the `crypto_verify`
specializations for the array sizes 16, 24, 32 and 64. -/
theorem constant_time_compare_decides_equality :
    (∀ a b size, constant_time_compare a b size = true ↔ ∀ j, j < size → a j = b j)
    ∧ (∀ Size a b, Size % 16 = 0 →
        (byte_array_eq Size a b = true ↔ ∀ j, j < Size → a j = b j))
    ∧ (∀ a b, byte_array_eq16 a b = true ↔ ∀ j, j < 16 → a j = b j)
    ∧ (∀ a b, byte_array_eq24 a b = true ↔ ∀ j, j < 24 → a j = b j)
    ∧ (∀ a b, byte_array_eq32 a b = true ↔ ∀ j, j < 32 → a j = b j)
    ∧ (∀ a b, byte_array_eq64 a b = true ↔ ∀ j, j < 64 → a j = b j) := by
  refine ⟨constant_time_compare_iff,
    fun Size a b _ => constant_time_compare_iff a b Size, ?_, ?_, ?_, ?_⟩
  · intro a b
    simpa using verifyN_eq_true (n := 16) (a := a) (b := b) (i := 0)
  · intro a b
    simp only [byte_array_eq24, Bool.and_eq_true, verifyN_eq_true, Nat.zero_add]
    constructor
    · rintro ⟨h0, h8⟩ j hj
      by_cases hj16 : j < 16
      · exact h0 j hj16
      · have : 8 + (j - 8) = j := by omega
        rw [← this]
        exact h8 (j - 8) (by omega)
    · intro hall
      exact ⟨fun j hj => hall j (by omega), fun j hj => hall (8 + j) (by omega)⟩
  · intro a b
    simpa using verifyN_eq_true (n := 32) (a := a) (b := b) (i := 0)
  · intro a b
    simpa using verifyN_eq_true (n := 64) (a := a) (b := b) (i := 0)

theorem constant_time_compare_decides_equality_witness :
    (32 % 16 = 0 ∧ byte_array_eq 32 (fun j => j % 7) (fun j => j % 7) = true)
    ∧ byte_array_eq24 (fun _ => 5) (fun _ => 5) = true :=
  ⟨⟨by decide,
    (constant_time_compare_decides_equality.2.1 32 (fun j => j % 7) (fun j => j % 7)
      (by decide)).mpr (fun j _ => rfl)⟩,
   (constant_time_compare_decides_equality.2.2.2.1 (fun _ => 5) (fun _ => 5)).mpr
     (fun j _ => rfl)⟩

lemma _unbox_spec {outBuf m ct pt : List Nat} (cb : List Nat → List Nat → Option (List Nat))
    (hm : m.length = 16) (hob : outBuf.length = ct.length)
    (hcb : cb m ct = some pt) (hpt : pt.length = ct.length) :
    _unbox outBuf (m ++ ct) cb = (some pt, pt) := by
  have hblen : (m ++ ct).length = ct.length + 16 := by
    rw [List.length_append, hm]; omega
  have hus : unboxedSize (ct.length + 16) = ct.length := by
    unfold unboxedSize; omega
  have hout : outBuf.take (unboxedSize (m ++ ct).length) = outBuf := by
    rw [hblen, hus, ← hob, List.take_length]
  have htk : (m ++ ct).take 16 = m := by
    have h2 := List.take_left m ct; rwa [hm] at h2
  have hdr : (m ++ ct).drop 16 = ct := by
    have h2 := List.drop_left m ct; rwa [hm] at h2
  have hw : writeAt outBuf 0 pt = pt :=
    writeAt_zero_full (by rw [hpt, hob])
  have hct : ct.take outBuf.length = ct := by
    rw [hob, List.take_length]
  unfold _unbox
  rw [if_neg (by rw [hblen]; omega)]
  simp only [hout, htk, hdr, hct, hcb, hw]

/-- C1: for every session key, nonce, MAC, additional data and ciphertext,
`encryption_key::unlock` (and `encrypted_reader::read`) returns a boolean:
true exactly when the MAC authenticates the ciphertext, false exactly when
the data has been altered or corrupted (the MAC does not match).  The boolean
is the whole result — `unlock` is `0 == Algorithm::unlock(..)` and `read` is
`Algorithm::read_stream(..) == 0` — so no other failure signal exists on the
decrypt path.  The hypotheses state the wrapped algorithm's AEAD contract
(authentication succeeds exactly on the matching MAC) at the given inputs. -/
theorem unlock_read_bool_iff_mac_authentic {Ctx : Type}
    (A : AEAD) (S : StreamAEAD Ctx) (key nonce m ct ad plainBuf : List Nat)
    (st : Ctx) (mS ctS adS plainBufS : List Nat)
    (hA : (A.unlock key nonce m ad ct).isSome = true ↔ m = A.macOf key nonce ad ct)
    (hS : (S.read_stream st mS adS ctS).isSome = true ↔ mS = S.macOfStream st adS ctS) :
    ((encryption_key.unlock A key nonce m ct ad plainBuf).1 = true
        ↔ m = A.macOf key nonce ad ct)
    ∧ ((encryption_key.unlock A key nonce m ct ad plainBuf).1 = false
        ↔ m ≠ A.macOf key nonce ad ct)
    ∧ ((encrypted_reader.read S st mS ctS adS plainBufS).1 = true
        ↔ mS = S.macOfStream st adS ctS)
    ∧ ((encrypted_reader.read S st mS ctS adS plainBufS).1 = false
        ↔ mS ≠ S.macOfStream st adS ctS) := by
  have h1 : (encryption_key.unlock A key nonce m ct ad plainBuf).1
      = (A.unlock key nonce m ad ct).isSome := by
    unfold encryption_key.unlock
    cases A.unlock key nonce m ad ct <;> rfl
  have h2 : (encrypted_reader.read S st mS ctS adS plainBufS).1
      = (S.read_stream st mS adS ctS).isSome := by
    unfold encrypted_reader.read
    cases S.read_stream st mS adS ctS <;> rfl
  rw [h1, h2]
  refine ⟨hA, ?_, hS, ?_⟩
  · simp only [Ne, ← hA]
    cases (A.unlock key nonce m ad ct).isSome <;> simp
  · simp only [Ne, ← hS]
    cases (S.read_stream st mS adS ctS).isSome <;> simp

theorem unlock_read_bool_iff_mac_authentic_witness :
    (encryption_key.unlock toyAEAD [1] [2] (toyMac [1] [2] [] [3]) [3] [] [0]).1 = true
    ∧ (encrypted_reader.read toyStream [9] (toyStreamMac [9] [] [4]) [4] [] [0]).1 = true := by
  have h := unlock_read_bool_iff_mac_authentic toyAEAD toyStream
    [1] [2] (toyMac [1] [2] [] [3]) [3] [] [0] [9]
    (toyStreamMac [9] [] [4]) [4] [] [0] (by decide) (by decide)
  exact ⟨h.1.mpr rfl, h.2.2.1.mpr rfl⟩

/-- C2: round-trip.  For every session key, nonce, plaintext and additional
data, `encryption_key::lock` followed by `encryption_key::unlock` with the
same key, nonce and additional data returns true and writes back exactly the
original plaintext; and `unbox` applied to the output of `box` (same key and
nonce) returns a non-null buffer whose contents equal the plaintext.  The
`hrt`/`hrt0` hypotheses are the wrapped AEAD algorithm's round-trip contract
(decrypting its own ciphertext under the same inputs succeeds), which is out
of scope per the spec; the remaining hypotheses size the buffers. -/
theorem lock_unlock_box_unbox_roundtrip (A : AEAD)
    (key nonce pt ad cipherBuf plainBuf outBuf outBuf2 : List Nat)
    (hrt : A.unlock key nonce (A.lock key nonce ad pt).2 ad (A.lock key nonce ad pt).1
      = some pt)
    (hrt0 : A.unlock key nonce (A.lock key nonce [] pt).2 [] (A.lock key nonce [] pt).1
      = some pt)
    (hlen : (A.lock key nonce ad pt).1.length = pt.length)
    (hlen0 : (A.lock key nonce [] pt).1.length = pt.length)
    (hmac0 : (A.lock key nonce [] pt).2.length = 16)
    (hcb : cipherBuf.length = pt.length)
    (hpb : plainBuf.length = pt.length)
    (hob : outBuf.length = pt.length + 16)
    (hob2 : outBuf2.length = pt.length) :
    encryption_key.unlock A key nonce
        (encryption_key.lock A key nonce pt ad cipherBuf).1
        (encryption_key.lock A key nonce pt ad cipherBuf).2
        ad plainBuf = (true, pt)
    ∧ encryption_key.unbox A key nonce
        (encryption_key.box A key nonce pt outBuf) outBuf2 = (some pt, pt) := by
  have hlock : encryption_key.lock A key nonce pt ad cipherBuf
      = ((A.lock key nonce ad pt).2, (A.lock key nonce ad pt).1) := by
    unfold encryption_key.lock
    rw [writeAt_zero_full (by rw [hlen, hcb])]
  constructor
  · rw [hlock]
    simp only [encryption_key.unlock, hrt]
    rw [writeAt_zero_full (by rw [hpb])]
  · have hbox : encryption_key.box A key nonce pt outBuf
        = (A.lock key nonce [] pt).2 ++ (A.lock key nonce [] pt).1 := by
      unfold encryption_key.box
      exact _box_spec pt.length hlen0 hmac0 (by omega)
    rw [hbox]
    unfold encryption_key.unbox
    exact _unbox_spec _ hmac0 (by rw [hob2, hlen0]) hrt0 (by rw [hlen0])

theorem lock_unlock_box_unbox_roundtrip_witness :
    encryption_key.unlock toyAEAD [7] [8]
        (encryption_key.lock toyAEAD [7] [8] [1, 2, 3] [9] [0, 0, 0]).1
        (encryption_key.lock toyAEAD [7] [8] [1, 2, 3] [9] [0, 0, 0]).2
        [9] [0, 0, 0] = (true, [1, 2, 3])
    ∧ encryption_key.unbox toyAEAD [7] [8]
        (encryption_key.box toyAEAD [7] [8] [1, 2, 3] (List.replicate 19 0)) [0, 0, 0]
      = (some [1, 2, 3], [1, 2, 3]) :=
  lock_unlock_box_unbox_roundtrip toyAEAD [7] [8] [1, 2, 3] [9]
    [0, 0, 0] [0, 0, 0] (List.replicate 19 0) [0, 0, 0]
    (by decide) (by decide) (by decide) (by decide) (by decide)
    (by decide) (by decide) (by decide) (by decide)

/-- C3: libSodium box wire format.  For every plaintext of size `n`,
`encryption_key::box` writes the 16-byte MAC at the start of the output
buffer immediately followed by the `n`-byte ciphertext (the same length as
the plaintext, per the `hlen` hypothesis on the wrapped algorithm), and
returns the output buffer shrunk to exactly `n + 16` bytes. -/
theorem box_wire_format (A : AEAD) (key nonce pt outBuf : List Nat)
    (hlen : (A.lock key nonce [] pt).1.length = pt.length)
    (hmac : (A.lock key nonce [] pt).2.length = 16)
    (hbuf : pt.length + 16 ≤ outBuf.length) :
    encryption_key.box A key nonce pt outBuf
      = (A.lock key nonce [] pt).2 ++ (A.lock key nonce [] pt).1
    ∧ (encryption_key.box A key nonce pt outBuf).length = pt.length + 16
    ∧ (encryption_key.box A key nonce pt outBuf).take 16 = (A.lock key nonce [] pt).2
    ∧ (encryption_key.box A key nonce pt outBuf).drop 16 = (A.lock key nonce [] pt).1
    ∧ ((encryption_key.box A key nonce pt outBuf).drop 16).length = pt.length := by
  have hb : encryption_key.box A key nonce pt outBuf
      = (A.lock key nonce [] pt).2 ++ (A.lock key nonce [] pt).1 := by
    unfold encryption_key.box
    exact _box_spec pt.length hlen hmac hbuf
  have htk : ((A.lock key nonce [] pt).2 ++ (A.lock key nonce [] pt).1).take 16
      = (A.lock key nonce [] pt).2 := by
    have h2 := List.take_left (A.lock key nonce [] pt).2 (A.lock key nonce [] pt).1
    rwa [hmac] at h2
  have hdr : ((A.lock key nonce [] pt).2 ++ (A.lock key nonce [] pt).1).drop 16
      = (A.lock key nonce [] pt).1 := by
    have h2 := List.drop_left (A.lock key nonce [] pt).2 (A.lock key nonce [] pt).1
    rwa [hmac] at h2
  refine ⟨hb, ?_, ?_, ?_, ?_⟩ <;> rw [hb]
  · rw [List.length_append, hmac, hlen, Nat.add_comm]
  · exact htk
  · exact hdr
  · rw [hdr, hlen]

theorem box_wire_format_witness :
    encryption_key.box toyAEAD [1] [2] [3, 4] (List.replicate 18 0)
      = toyMac [1] [2] [] [3, 4] ++ [3, 4]
    ∧ (encryption_key.box toyAEAD [1] [2] [3, 4] (List.replicate 18 0)).length = 2 + 16 := by
  have h := box_wire_format toyAEAD [1] [2] [3, 4] (List.replicate 18 0)
    (by decide) (by decide) (by decide)
  exact ⟨h.1, h.2.1⟩

/-- C5: every memory-sensitive value is filled with zero bytes by its
destructor.  `secret_byte_array<Size>::~secret_byte_array` calls
`this->wipe()` (`crypto_wipe` over the whole array); the listed types —
session encryption keys, key-exchange secret keys and shared secrets,
signing key pairs and seeds, Argon2 hashes and salts — are all subclasses of
`secret_byte_array`, so the universally quantified first conjunct covers each
of them at its size; `~encrypted_writer` and `~encrypted_reader` wipe their
whole stream contexts the same way.  (That C++ runs the destructor on scope
exit is language semantics outside this embedding.) -/
theorem secret_destructors_wipe (xs ctxw ctxr : List Nat) :
    secret_byte_array.dtor xs = List.replicate xs.length 0
    ∧ encrypted_writer.dtor ctxw = List.replicate ctxw.length 0
    ∧ encrypted_reader.dtor ctxr = List.replicate ctxr.length 0 :=
  ⟨crypto_wipe_eq xs, crypto_wipe_eq ctxw, crypto_wipe_eq ctxr⟩

/-- C6: the NaCl/TweetNaCl padded secretbox convention.
`XSalsa20_Poly1305::lock` presents the plaintext to the tweetnacl secretbox
preceded by 32 zero bytes (total length `n + 32`), takes the MAC from output
bytes 16..31 and the ciphertext from output bytes 32..(n+31); `unlock`
reconstructs the padded buffer — 16 zero bytes, then the MAC, then the
ciphertext — and returns -1 when secretbox_open rejects it and 0 otherwise.
`sb`/`sbOpen` stand for the vendored tweetnacl functions (out of scope); the
only assumption is that secretbox output has the input buffer's length. -/
theorem xsalsa20_padded_secretbox_convention
    (sb : List Nat → List Nat → List Nat → List Nat)
    (sbOpen : List Nat → List Nat → List Nat → Option (List Nat))
    (key nonce pt m ct out : List Nat)
    (hsb : (sb (List.replicate 32 0 ++ pt) nonce key).length = pt.length + 32) :
    (List.replicate 32 0 ++ pt).length = pt.length + 32
    ∧ (List.replicate 32 0 ++ pt).take 32 = List.replicate 32 0
    ∧ (List.replicate 32 0 ++ pt).drop 32 = pt
    ∧ XSalsa20_Poly1305.lock sb key nonce pt
        = ((sb (List.replicate 32 0 ++ pt) nonce key).drop 16 |>.take 16,
           (sb (List.replicate 32 0 ++ pt) nonce key).drop 32 |>.take pt.length)
    ∧ (XSalsa20_Poly1305.lock sb key nonce pt).1.length = 16
    ∧ (XSalsa20_Poly1305.lock sb key nonce pt).2
        = (sb (List.replicate 32 0 ++ pt) nonce key).drop 32
    ∧ (XSalsa20_Poly1305.lock sb key nonce pt).2.length = pt.length
    ∧ ((XSalsa20_Poly1305.unlock sbOpen key nonce m ct out).1 = -1
        ↔ sbOpen (List.replicate 16 0 ++ m ++ ct) nonce key = none)
    ∧ ((XSalsa20_Poly1305.unlock sbOpen key nonce m ct out).1 = 0
        ↔ (sbOpen (List.replicate 16 0 ++ m ++ ct) nonce key).isSome = true) := by
  have hin : (List.replicate 32 0 ++ pt).length = pt.length + 32 := by
    rw [List.length_append, List.length_replicate]; omega
  have htk32 : (List.replicate 32 0 ++ pt).take 32 = List.replicate (32 : Nat) 0 := by
    have h2 := List.take_left (List.replicate (32 : Nat) (0 : Nat)) pt
    rwa [List.length_replicate] at h2
  have hdr32 : (List.replicate 32 0 ++ pt).drop 32 = pt := by
    have h2 := List.drop_left (List.replicate (32 : Nat) (0 : Nat)) pt
    rwa [List.length_replicate] at h2
  have hlockeq : XSalsa20_Poly1305.lock sb key nonce pt
      = ((sb (List.replicate 32 0 ++ pt) nonce key).drop 16 |>.take 16,
         (sb (List.replicate 32 0 ++ pt) nonce key).drop 32 |>.take pt.length) := rfl
  have hmlen : (XSalsa20_Poly1305.lock sb key nonce pt).1.length = 16 := by
    rw [hlockeq]
    simp only [List.length_take, List.length_drop, hsb]
    omega
  have hctfull : ((sb (List.replicate 32 0 ++ pt) nonce key).drop 32).take pt.length
      = (sb (List.replicate 32 0 ++ pt) nonce key).drop 32 := by
    have hl : ((sb (List.replicate 32 0 ++ pt) nonce key).drop 32).length = pt.length := by
      rw [List.length_drop, hsb]; omega
    rw [← hl, List.take_length]
  have hctlen : (XSalsa20_Poly1305.lock sb key nonce pt).2.length = pt.length := by
    rw [hlockeq]
    simp only [hctfull, List.length_drop, hsb]
    omega
  refine ⟨hin, htk32, hdr32, hlockeq, hmlen, ?_, hctlen, ?_, ?_⟩
  · rw [hlockeq]
    exact hctfull
  · rcases hso : sbOpen (List.replicate 16 0 ++ m ++ ct) nonce key with _ | v <;>
      simp only [XSalsa20_Poly1305.unlock, hso] <;> simp
  · rcases hso : sbOpen (List.replicate 16 0 ++ m ++ ct) nonce key with _ | v <;>
      simp only [XSalsa20_Poly1305.unlock, hso] <;> simp

theorem xsalsa20_padded_secretbox_convention_witness :
    XSalsa20_Poly1305.lock toySecretbox [1] [2] [5, 6]
      = ((toySecretbox (List.replicate 32 0 ++ [5, 6]) [2] [1]).drop 16 |>.take 16,
         (toySecretbox (List.replicate 32 0 ++ [5, 6]) [2] [1]).drop 32 |>.take 2)
    ∧ (XSalsa20_Poly1305.unlock toySecretboxOpen [1] [2] (List.replicate 16 0) [7] [0]).1
        = 0 := by
  have h := xsalsa20_padded_secretbox_convention toySecretbox toySecretboxOpen
    [1] [2] [5, 6] (List.replicate 16 0) [7] [0] (by decide)
  exact ⟨h.2.2.2.1, h.2.2.2.2.2.2.2.2.mpr (by decide)⟩

/-- C7: `argon2::create` allocates an `NBlocks * 1024`-byte work area (the
product is computed in `uint32_t` arithmetic, so the stated size holds
whenever `NBlocks * 1024 < 2^32`, in particular for the default
`NBlocks = 100000`), its only failure mode is allocation failure
(`std::bad_alloc`, or abort when exceptions are disabled), and when
allocation succeeds it always returns a `Size`-byte hash — there is no
boolean or other error path. -/
theorem argon2_create_alloc_only_failure (Size NBlocks : Nat)
    (hashFn : List Nat → List Nat → Nat → Nat) (password s4lt : List Nat) :
    (∀ allocOk, argon2.create Size hashFn allocOk password s4lt = Except.error ()
        ↔ allocOk = false)
    ∧ (∀ allocOk h, argon2.create Size hashFn allocOk password s4lt = Except.ok h
        → h.length = Size)
    ∧ (NBlocks * 1024 < 2 ^ 32 → argon2.workAreaSize NBlocks = NBlocks * 1024)
    ∧ argon2.workAreaSize 100000 = 100000 * 1024 := by
  refine ⟨?_, ?_, ?_, ?_⟩
  · intro allocOk
    cases allocOk <;> simp [argon2.create]
  · intro allocOk h hok
    cases allocOk with
    | false => simp [argon2.create] at hok
    | true =>
      simp only [argon2.create, if_pos, Except.ok.injEq] at hok
      rw [← hok, List.length_map, List.length_range]
  · intro hlt
    unfold argon2.workAreaSize
    exact Nat.mod_eq_of_lt hlt
  · unfold argon2.workAreaSize
    norm_num

theorem argon2_create_alloc_only_failure_witness :
    (argon2.create 64 (fun _ _ _ => 7) false [1, 2] [3] = Except.error ())
    ∧ argon2.workAreaSize 100000 = 100000 * 1024 := by
  have h := argon2_create_alloc_only_failure 64 100000 (fun _ _ _ => 7) [1, 2] [3]
  exact ⟨(h.1 false).mpr rfl, h.2.2.2⟩

/-- C8: fixed binary layouts.  Every instance of the public value types has
the published byte width of its algorithm — session nonce 24 bytes, MAC 16,
session encryption key 32, key-exchange secret key, public key and shared
secret 32 each, signature 64, signing public key 32, `key_pair` 64 — and the
size is a compile-time constant of the type (`byte_array<Size>` is a
`std::array<uint8_t, Size>`), so it cannot change per instance. -/
theorem fixed_binary_layouts :
    (∀ x : session.nonce, x.bytes.length = 24)
    ∧ (∀ x : session.mac, x.bytes.length = 16)
    ∧ (∀ x : session.encryption_key_t, x.bytes.length = 32)
    ∧ (∀ x : key_exchange.secret_key, x.bytes.length = 32)
    ∧ (∀ x : key_exchange.public_key, x.bytes.length = 32)
    ∧ (∀ x : key_exchange.shared_secret, x.bytes.length = 32)
    ∧ (∀ x : signature_t, x.bytes.length = 64)
    ∧ (∀ x : public_key_t, x.bytes.length = 32)
    ∧ (∀ x : key_pair_t, x.bytes.length = 64) :=
  ⟨fun x => x.len_eq, fun x => x.len_eq, fun x => x.len_eq,
   fun x => x.len_eq, fun x => x.len_eq, fun x => x.len_eq,
   fun x => x.len_eq, fun x => x.len_eq, fun x => x.len_eq⟩

/-- C9: for every boxed input shorter than 16 bytes (smaller than a MAC),
`_unbox` — hence `unbox` — returns the null output `{nullptr, 0}` and leaves
the output buffer unchanged, whatever the decryption callback is (the
quantification over `cb` shows decryption is not invoked); for an input of
exactly 16 bytes, `unboxedSize` clamps to 0, so a successful `unbox` yields
an empty (zero-length, non-null) plaintext. -/
theorem unbox_short_and_empty (outBuf boxed : List Nat)
    (cb : List Nat → List Nat → Option (List Nat))
    (A : AEAD) (key nonce boxed16 outBuf2 : List Nat)
    (hshort : boxed.length < 16)
    (h16 : boxed16.length = 16)
    (hok : A.unlock key nonce (boxed16.take 16) [] [] = some []) :
    _unbox outBuf boxed cb = (none, outBuf)
    ∧ unboxedSize 16 = 0
    ∧ encryption_key.unbox A key nonce boxed16 outBuf2 = (some [], outBuf2) := by
  refine ⟨?_, by unfold unboxedSize; omega, ?_⟩
  · unfold _unbox
    rw [if_pos hshort]
  · unfold encryption_key.unbox _unbox
    rw [if_neg (by omega)]
    have hus : unboxedSize boxed16.length = 0 := by
      rw [h16]; unfold unboxedSize; omega
    simp only [hus, List.take_zero, List.length_nil, hok, writeAt_nil]

theorem unbox_short_and_empty_witness :
    _unbox [9, 9] [1, 2, 3] (fun _ _ => some [42]) = (none, [9, 9])
    ∧ unboxedSize 16 = 0
    ∧ encryption_key.unbox toyAEAD [1] [2] (toyMac [1] [2] [] []) [7, 7]
        = (some [], [7, 7]) :=
  unbox_short_and_empty [9, 9] [1, 2, 3] (fun _ _ => some [42]) toyAEAD
    [1] [2] (toyMac [1] [2] [] []) [7, 7] (by decide) (by decide) (by decide)

/-- C10: a 64-byte `key_pair` is the concatenation of its 32-byte seed
(secret key) followed by its 32-byte public key.  The hypothesis `hgen` is
the documented contract of the vendored `crypto_eddsa_key_pair` (quoted in
the source: "the private key is 64 bytes, and is the concatenation of the
seed and the public key"): then `key_pair(s).get_seed() == s`,
`get_public_key()` returns bytes 32..63 of the pair, and
`key_pair(s).get_public_key()` equals the public key produced by the
generate function for that seed. -/
theorem key_pair_seed_public_layout (gen : List Nat → List Nat × List Nat)
    (s pub : List Nat)
    (hs : s.length = 32) (hpub : pub.length = 32)
    (hgen : gen s = (s ++ pub, pub)) :
    key_pair.get_seed (key_pair.from_seed gen s) = s
    ∧ key_pair.get_public_key (key_pair.from_seed gen s) = pub
    ∧ key_pair.get_public_key (key_pair.from_seed gen s) = (gen s).2
    ∧ (key_pair.from_seed gen s).length = 64
    ∧ key_pair.get_public_key (key_pair.from_seed gen s)
        = ((key_pair.from_seed gen s).drop 32).take 32 := by
  have hfs : key_pair.from_seed gen s = s ++ pub := by
    unfold key_pair.from_seed
    rw [hgen]
  have hdr : (s ++ pub).drop 32 = pub := by
    have h2 := List.drop_left s pub
    rwa [hs] at h2
  have htk : (s ++ pub).take 32 = s := by
    have h2 := List.take_left s pub
    rwa [hs] at h2
  have hpubtk : pub.take 32 = pub := by
    rw [← hpub, List.take_length]
  refine ⟨?_, ?_, ?_, ?_, rfl⟩
  · unfold key_pair.get_seed
    rw [hfs, htk]
  · unfold key_pair.get_public_key
    rw [hfs, hdr, hpubtk]
  · unfold key_pair.get_public_key
    rw [hfs, hdr, hpubtk, hgen]
  · rw [hfs, List.length_append, hs, hpub]

theorem key_pair_seed_public_layout_witness :
    key_pair.get_seed (key_pair.from_seed
        (fun s => (s ++ List.replicate 32 7, List.replicate 32 7))
        (List.replicate 32 1))
      = List.replicate 32 1
    ∧ key_pair.get_public_key (key_pair.from_seed
        (fun s => (s ++ List.replicate 32 7, List.replicate 32 7))
        (List.replicate 32 1))
      = List.replicate 32 7 := by
  have h := key_pair_seed_public_layout
    (fun s => (s ++ List.replicate 32 7, List.replicate 32 7))
    (List.replicate 32 1) (List.replicate 32 7)
    (by decide) (by decide) rfl
  exact ⟨h.1, h.2.1⟩

end MonocypherCpp
